import Mathlib

/-!
# clickhouse-backup: `utils.go`

A shallow embedding of `utils.go` (retention pruning, archive-format dispatch,
directory copy) together with the properties stated about it.

Conventions of the embedding.

* Go strings are Lean `String`s; the string functions of the Go standard
  library that the source calls (`strings.TrimSuffix`, `strings.TrimPrefix`,
  `strings.Trim`, `filepath.Join`, ...) are defined on the character list.
* Go `int` is the 64-bit two's-complement integer: a value is an `Int` in
  `[-2^63, 2^63)` and an arithmetic result is reduced by `wrapInt`.
* A Go function that can stop with a run-time panic returns an `Outcome`.
* `time.Parse(BackupTimeFormat, ·)` is a parameter `parseTime` of the pruner:
  the constant `BackupTimeFormat` is declared outside `utils.go`. The concrete
  `parseBackupTime` follows the format the specification gives and serves the
  evaluations on concrete names.
* `sort.SliceStable` is modelled by its contract, realised by insertion sort;
  `stableSort_unique` shows that the contract fixes the result.
* `path/filepath` is the Unix build: the separator is the slash.
  `filepath.Walk` runs on a `Tree`, whose nodes include a directory that
  cannot be read and a name whose `os.Lstat` fails: for those the walk function
  is called with the error.
* The file system is explicit state: the operating-system calls that change it
  are the fields of a `System`, the state is threaded through `copyPath`
  together with the log.
-/

namespace ClickhouseBackup

/-! ## Go strings -/

namespace strings

/-- Go `strings.HasSuffix(s, suffix)`. -/
def HasSuffix (s suffix : String) : Bool :=
  suffix.data.isSuffixOf s.data

/-- Go `strings.TrimSuffix(s, suffix)`: `s` without the trailing `suffix`
when `s` ends with it, `s` unchanged otherwise. At most one copy is removed. -/
def TrimSuffix (s suffix : String) : String :=
  if HasSuffix s suffix then
    String.mk (s.data.take (s.data.length - suffix.data.length))
  else s

/-- Go `strings.HasPrefix(s, prefix)`. -/
def HasPrefix (s pre : String) : Bool :=
  pre.data.isPrefixOf s.data

/-- Go `strings.TrimPrefix(s, prefix)`: `s` without the leading `prefix` when
`s` starts with it, `s` unchanged otherwise. -/
def TrimPrefix (s pre : String) : String :=
  if HasPrefix s pre then String.mk (s.data.drop pre.data.length) else s

/-- Go `strings.Trim(s, cutset)`: `s` with all leading and trailing characters
contained in `cutset` removed. -/
def Trim (s cutset : String) : String :=
  String.mk
    (((s.data.dropWhile (fun c => cutset.data.contains c)).reverse.dropWhile
      (fun c => cutset.data.contains c)).reverse)

/-- Go `strings.Join(elems, sep)`. -/
def Join (elems : List String) (sep : String) : String :=
  String.mk (List.intercalate sep.data (elems.map String.data))

/-- Go `strings.Contains(s, substr)`. -/
def Contains (s substr : String) : Bool :=
  s.data.tails.any (fun t => substr.data.isPrefixOf t)

end strings

/-! ## Go `int` -/

/-- Width of the Go type `int`. -/
def intSize : Nat := 64

/-- Smallest value of the Go type `int`. -/
def minInt : Int := -(2 ^ (intSize - 1))

/-- Largest value of the Go type `int`. -/
def maxInt : Int := 2 ^ (intSize - 1) - 1

/-- Reduction of an exact integer result to the Go type `int`
(two's-complement wrap-around). -/
def wrapInt (x : Int) : Int :=
  (x + 2 ^ (intSize - 1)) % 2 ^ intSize - 2 ^ (intSize - 1)

/-- Result of running Go code that may stop with a run-time panic. -/
inductive Outcome (α : Type) where
  /-- the function returned the value -/
  | ok (value : α)
  /-- run-time panic: index out of range [index] with length [length] -/
  | indexOutOfRange (index length : Nat)
  /-- the model ran out of fuel (never reached for the fuel it is given) -/
  | outOfFuel
  deriving DecidableEq, Repr

/-! ## Retention pruning -/

/-- The instant a `time.Time` denotes. `Time.Before` only compares instants. -/
abbrev Time := Int

/-- Go `t.Before(u)`. -/
def Time.Before (t u : Time) : Bool := decide (t < u)

/-- The local type `parsedBackup` of `GetBackupsToDelete`. -/
structure parsedBackup where
  name : String
  time : Time
  deriving DecidableEq, Repr

/-- First loop of `GetBackupsToDelete`: every name whose text without a
trailing ".tar" parses is appended, with its time, to `backupList`. -/
def parseBackups (parseTime : String → Option Time) (backups : List String) :
    List parsedBackup :=
  backups.foldl
    (fun backupList backupName =>
      match parseTime (strings.TrimSuffix backupName ".tar") with
      | some t => backupList ++ [{ name := backupName, time := t }]
      | none => backupList)
    []

namespace sort

/-- One insertion step of the stable sort: `x`, which came later in the input
than every element of the sorted list, moves left only past elements that
`less` puts strictly after it. -/
def insertStable {α : Type} (less : α → α → Bool) (x : α) : List α → List α
  | [] => [x]
  | y :: ys => if less x y then x :: y :: ys else y :: insertStable less x ys

/-- Go `sort.SliceStable(x, less)`: sorts by `less` keeping equal elements in
their original order. The library contract is realised by insertion sort. -/
def SliceStable {α : Type} (less : α → α → Bool) (x : List α) : List α :=
  x.foldl (fun sorted a => insertStable less a sorted) []

end sort

/-- The loop `for i := 0; i < bound; i++ { result = append(result,
backupList[i].name) }` of `GetBackupsToDelete`, started at `i` with `result`. -/
def deleteLoop (backupList : List parsedBackup) (bound : Int) :
    Nat → Nat → List String → Outcome (List String)
  | 0, _, _ => Outcome.outOfFuel
  | fuel + 1, i, result =>
    if (i : Int) < bound then
      match backupList[i]? with
      | some b => deleteLoop backupList bound fuel (i + 1) (result ++ [b.name])
      | none => Outcome.indexOutOfRange i backupList.length
    else Outcome.ok result

/-- Go `GetBackupsToDelete(backups, keep)`. -/
def GetBackupsToDelete (parseTime : String → Option Time) (backups : List String)
    (keep : Int) : Outcome (List String) :=
  let backupList := parseBackups parseTime backups
  let backupList := sort.SliceStable (fun a b => a.time.Before b.time) backupList
  if (backupList.length : Int) > keep then
    deleteLoop backupList (wrapInt (backupList.length - keep))
      (backupList.length + 1) 0 []
  else Outcome.ok []

/-- Number of days of a month of a year (Gregorian calendar). -/
def daysIn (year month : Nat) : Nat :=
  if month = 2 then
    if year % 4 = 0 ∧ (year % 100 ≠ 0 ∨ year % 400 = 0) then 29 else 28
  else if month = 4 ∨ month = 6 ∨ month = 9 ∨ month = 11 then 30
  else 31

/-- Number of days from 1970-01-01 to the given civil date (proleptic
Gregorian calendar). -/
def daysFromCivil (year month day : Nat) : Int :=
  let y : Int := if month ≤ 2 then (year : Int) - 1 else year
  let era : Int := y / 400
  let yoe : Int := y - era * 400
  let mp : Int := if month ≤ 2 then (month : Int) + 9 else (month : Int) - 3
  let doy : Int := (153 * mp + 2) / 5 + day - 1
  let doe : Int := yoe * 365 + yoe / 4 - yoe / 100 + doy
  era * 146097 + doe - 719468

/-- Value of a run of decimal digits, `none` when a character is not a digit. -/
def digitsValue : List Char → Option Nat
  | [] => some 0
  | cs =>
    cs.foldl
      (fun acc c =>
        match acc with
        | some n => if c.isDigit then some (10 * n + (c.toNat - 48)) else none
        | none => none)
      (some 0)

/-- Modelled from the spec: the constant `BackupTimeFormat` and the call
`time.Parse(BackupTimeFormat, value)`, both outside `utils.go`. The spec gives
the format as YYYY-MM-DDTHH-MM-SS: four digits of year, two each of month, day,
hour, minute and second, separated by `-`, `-`, `T`, `-`, `-`, every field in
its calendar range and nothing before or after. The result is the instant in
seconds since 1970-01-01T00:00:00 UTC. -/
def parseBackupTime (value : String) : Option Time :=
  match value.data with
  | [y1, y2, y3, y4, c1, m1, m2, c2, d1, d2, c3, h1, h2, c4, n1, n2, c5, s1, s2] =>
    if c1 = '-' ∧ c2 = '-' ∧ c3 = 'T' ∧ c4 = '-' ∧ c5 = '-' then
      match digitsValue [y1, y2, y3, y4], digitsValue [m1, m2], digitsValue [d1, d2],
        digitsValue [h1, h2], digitsValue [n1, n2], digitsValue [s1, s2] with
      | some year, some month, some day, some hour, some minute, some second =>
        if 1 ≤ month ∧ month ≤ 12 ∧ 1 ≤ day ∧ day ≤ daysIn year month ∧ hour < 24 ∧
            minute < 60 ∧ second < 60 then
          some (((daysFromCivil year month day * 24 + hour) * 60 + minute) * 60 + second)
        else none
      | _, _, _, _, _, _ => none
    else none
  | _ => none

/-! ### Specification-side notions for the pruner -/

/-- A name takes part in retention: its text with one trailing ".tar" removed
parses. -/
def parses (parseTime : String → Option Time) (name : String) : Bool :=
  (parseTime (strings.TrimSuffix name ".tar")).isSome

/-- The parseable names, in input order, each with its parsed time. -/
def parsedEntries (parseTime : String → Option Time) (backups : List String) :
    List parsedBackup :=
  backups.filterMap
    (fun name =>
      (parseTime (strings.TrimSuffix name ".tar")).map (fun t => { name := name, time := t }))

/-- `sorted` is `entries` stably sorted by time ascending: the same entries,
in non-decreasing time, entries of equal time in their order in `entries`. -/
def IsStableSortByTime (entries sorted : List parsedBackup) : Prop :=
  sorted.Perm entries ∧
    sorted.Pairwise (fun a b => a.time ≤ b.time) ∧
      ∀ t : Time, sorted.filter (fun a => decide (a.time = t)) =
        entries.filter (fun a => decide (a.time = t))

/-! ## Archive format dispatch -/

/-- The `archiver.Writer` values `getArchiveWriter` builds: `Tar` is
`&archiver.Tar{}`, the others wrap `archiver.NewTar()`, three of them with the
compression level. -/
inductive Writer where
  | Tar
  | TarLz4 (CompressionLevel : Int)
  | TarBz2 (CompressionLevel : Int)
  | TarGz (CompressionLevel : Int)
  | TarSz
  | TarXz
  deriving DecidableEq, Repr

/-- The `archiver.Reader` values `getArchiveReader` builds. -/
inductive Reader where
  | NewTar
  | NewTarLz4
  | NewTarBz2
  | NewTarGz
  | NewTarSz
  | NewTarXz
  deriving DecidableEq, Repr

/-- Go `getArchiveWriter(format, level)`; `Except.error` carries the message of
the returned error (the writer is then nil). -/
def getArchiveWriter (format : String) (level : Int) : Except String Writer :=
  match format with
  | "tar" => .ok Writer.Tar
  | "lz4" => .ok (Writer.TarLz4 level)
  | "bzip2" => .ok (Writer.TarBz2 level)
  | "gzip" => .ok (Writer.TarGz level)
  | "sz" => .ok Writer.TarSz
  | "xz" => .ok Writer.TarXz
  | _ => .error "wrong compression_format, supported: 'lz4', 'bzip2', 'gzip', 'sz', 'xz'"

/-- Go `getExtension(format)`. -/
def getExtension (format : String) : String :=
  match format with
  | "tar" => "tar"
  | "lz4" => "tar.lz4"
  | "bzip2" => "tar.bz2"
  | "gzip" => "tar.gz"
  | "sz" => "tar.sz"
  | "xz" => "tar.xz"
  | _ => ""

/-- Go `getArchiveReader(format)`; `Except.error` carries the message of the
returned error (the reader is then nil). -/
def getArchiveReader (format : String) : Except String Reader :=
  match format with
  | "tar" => .ok Reader.NewTar
  | "lz4" => .ok Reader.NewTarLz4
  | "bzip2" => .ok Reader.NewTarBz2
  | "gzip" => .ok Reader.NewTarGz
  | "sz" => .ok Reader.NewTarSz
  | "xz" => .ok Reader.NewTarXz
  | _ => .error "wrong compression_format, supported: 'tar', 'lz4', 'bzip2', 'gzip', 'sz', 'xz'"

/-- The six supported format identifiers. -/
def supportedFormats : List String := ["tar", "lz4", "bzip2", "gzip", "sz", "xz"]

/-- An error message names the identifier `format`: it contains it in single
quotes, the way both messages of the source list identifiers. -/
def namesFormat (message format : String) : Bool :=
  strings.Contains message ("'" ++ format ++ "'")

/-! ## Paths (`path/filepath`, Unix build) -/

namespace filepath

/-- Go `filepath.Separator` (Unix build). -/
def Separator : Char := '/'

/-- Go `os.IsPathSeparator(c)` (Unix build). -/
def IsPathSeparator (c : Char) : Bool := c == Separator

/-- Go `filepath.ToSlash(path)`: the path unchanged when the separator is the
slash, every separator replaced by a slash otherwise. -/
def ToSlash (path : String) : String :=
  if Separator = '/' then path
  else String.mk (path.data.map (fun c => if c = Separator then '/' else c))

/-- The `..` case of `Clean`: `out.w--` and then `out.w--` repeated while
`out.w > dotdot` and the byte at `out.w` is no separator. The argument is the
value of `out.w` after the first decrement, the result its final value. -/
def cleanBacktrack (out : List Char) (dotdot : Nat) : Nat → Nat
  | 0 => 0
  | w + 1 =>
    if w + 1 > dotdot ∧ !IsPathSeparator (out.getD (w + 1) Separator) then
      cleanBacktrack out dotdot w
    else w + 1

/-- The loop `for r < n` of `Clean`: `r` is the index of the next byte to read,
`out` the bytes written so far, `dotdot` the index where `..` must stop. -/
def cleanLoop (path : List Char) (rooted : Bool) :
    Nat → Nat → List Char → Nat → List Char
  | 0, _, out, _ => out
  | fuel + 1, r, out, dotdot =>
    if r < path.length then
      if IsPathSeparator (path.getD r Separator) then
        cleanLoop path rooted fuel (r + 1) out dotdot
      else if path.getD r Separator = '.' ∧
          (r + 1 = path.length ∨ IsPathSeparator (path.getD (r + 1) Separator)) then
        cleanLoop path rooted fuel (r + 1) out dotdot
      else if path.getD r Separator = '.' ∧ path.getD (r + 1) Separator = '.' ∧
          (r + 2 = path.length ∨ IsPathSeparator (path.getD (r + 2) Separator)) then
        if out.length > dotdot then
          cleanLoop path rooted fuel (r + 2)
            (out.take (cleanBacktrack out dotdot (out.length - 1))) dotdot
        else if !rooted then
          let out := (if out.length > 0 then out ++ [Separator] else out) ++ ['.', '.']
          cleanLoop path rooted fuel (r + 2) out out.length
        else cleanLoop path rooted fuel (r + 2) out dotdot
      else
        let out :=
          if (rooted && out.length != 1) || (!rooted && out.length != 0) then
            out ++ [Separator]
          else out
        let element := (path.drop r).takeWhile (fun c => !IsPathSeparator c)
        cleanLoop path rooted fuel (r + element.length) (out ++ element) dotdot
    else out

/-- Go `filepath.Clean(path)` (Unix build: no volume name, `FromSlash` is the
identity). Every round of the loop reads at least one byte, so `path.length`
rounds of fuel are enough. -/
def Clean (path : String) : String :=
  if path = "" then "."
  else
    let rooted := IsPathSeparator (path.data.getD 0 Separator)
    let out :=
      if rooted then cleanLoop path.data rooted (path.data.length + 1) 1 [Separator] 1
      else cleanLoop path.data rooted (path.data.length + 1) 0 [] 0
    if out.length = 0 then "." else String.mk out

/-- Go `filepath.Join(elem...)`: the elements from the first non-empty one on,
joined by the separator and cleaned; the empty string when all are empty. -/
def Join : List String → String
  | [] => ""
  | e :: rest =>
    if e ≠ "" then Clean (strings.Join (e :: rest) (String.singleton Separator))
    else Join rest

end filepath

/-! ## Directory copy -/

/-- The part of `os.FileInfo` that `copyPath` reads: `IsDir()` and
`Mode().IsRegular()`. -/
structure FileInfo where
  IsDir : Bool
  IsRegular : Bool
  deriving DecidableEq, Repr

/-- The source tree as `filepath.Walk` finds it: a node that is not a
directory (regular or not); a directory with its entries in the order `Walk`
reads them; a directory whose entries cannot be read (`readDirNames` fails
with `err`); a name for which `os.Lstat` fails with `err`. -/
inductive Tree where
  | file (name : String) (regular : Bool)
  | dir (name : String) (entries : List Tree)
  | unreadable (name : String) (err : String)
  | missing (name : String) (err : String)
  deriving Repr

/-- Name of a node in its directory. -/
def Tree.name : Tree → String
  | .file name _ => name
  | .dir name _ => name
  | .unreadable name _ => name
  | .missing name _ => name

/-- Stands for the nil `os.FileInfo` that the walk passes together with the
error of a failed `os.Lstat`. -/
def noFileInfo : FileInfo := { IsDir := false, IsRegular := false }

/-- The file system and the log, as explicit state: `fs` is the state of the
file system, `log` the lines written by `log.Printf`, oldest first. -/
structure World (σ : Type) where
  fs : σ
  log : List String

/-- Go `log.Printf` with the formatted message `line`. -/
def World.Printf {σ : Type} (w : World σ) (line : String) : World σ :=
  { w with log := w.log ++ [line] }

/-- The operating-system calls of `copyPath` and `copyFile` that change the
file system, as state transformers on `σ`; `φ` is the type of an open file.
An error is its message. -/
structure System (σ φ : Type) where
  /-- `os.MkdirAll(path, os.ModePerm)` -/
  MkdirAll : String → σ → Option String × σ
  /-- `os.Open(name)` -/
  Open : String → σ → Except String φ × σ
  /-- `os.Create(name)` -/
  Create : String → σ → Except String φ × σ
  /-- `io.Copy(dst, src)`, the returned error -/
  Copy : φ → φ → σ → Option String × σ
  /-- `f.Close()` -/
  Close : φ → σ → σ

/-- Go `copyFile(srcFile, dstFile)`. The deferred calls run last opened first. -/
def copyFile {σ φ : Type} (sys : System σ φ) (srcFile dstFile : String) (s : σ) :
    Option String × σ :=
  match sys.Open srcFile s with
  | (.error err, s) => (some err, s)
  | (.ok src, s) =>
    match sys.Create dstFile s with
    | (.error err, s) => (some err, sys.Close src s)
    | (.ok dst, s) =>
      match sys.Copy dst src s with
      | (err, s) => (err, sys.Close src (sys.Close dst s))

/-- Lines 40 to 42 of `copyPath`: the destination path of the node the walk
reports as `filePath`. -/
def dstFilePath (src dst filePath : String) : String :=
  let filePath := filepath.ToSlash filePath
  let filename := strings.Trim (strings.TrimPrefix filePath src) "/"
  filepath.Join [dst, filename]

/-- The function `copyPath` passes to `filepath.Walk`: called with the path of
a node, its `FileInfo` and the error of reaching it, it returns an error or
nil. -/
def copyPathFn {σ φ : Type} (sys : System σ φ) (src dst : String) (dryRun : Bool)
    (filePath : String) (info : FileInfo) (err : Option String) (w : World σ) :
    Option String × World σ :=
  match err with
  | some err => (some err, w)
  | none =>
    let filePath := filepath.ToSlash filePath
    let filename := strings.Trim (strings.TrimPrefix filePath src) "/"
    let dstFilePath := filepath.Join [dst, filename]
    if dryRun then
      if info.IsDir then
        (none, w.Printf ("make path " ++ dstFilePath))
      else if !info.IsRegular then
        (none, w.Printf ("'" ++ filePath ++ "' is not a regular file, skipping"))
      else
        (none, w.Printf ("copy " ++ filePath ++ " -> " ++ dstFilePath))
    else if info.IsDir then
      match sys.MkdirAll dstFilePath w.fs with
      | (err, fs) => (err, { w with fs := fs })
    else if !info.IsRegular then
      (none, w.Printf ("'" ++ filePath ++ "' is not a regular file, skipping"))
    else
      match copyFile sys filePath dstFilePath w.fs with
      | (err, fs) => (err, { w with fs := fs })

namespace filepath

mutual
/-- Go `walk(path, info, walkFn)` of `path/filepath`, with the handling of a
failed `os.Lstat` that the library does where it calls `walk`.

* A node that is not a directory: `walkFn(path, info, nil)`.
* A directory: its names are read first, then `walkFn(path, info, err)` is
  called with the error of the reading; when the names could not be read the
  result of that call is the result of `walk`; otherwise a non-nil result
  ends the walk and a nil result starts the loop over the entries.
* A name for which `os.Lstat` fails: `walkFn(path, nil, err)`; a non-nil
  result ends the walk, after a nil result the walk goes on.

(`copyPathFn` never returns `filepath.SkipDir` or `filepath.SkipAll`.) -/
def walk {ω : Type} (walkFn : String → FileInfo → Option String → ω → Option String × ω)
    (path : String) : Tree → ω → Option String × ω
  | .file _ regular, w => walkFn path { IsDir := false, IsRegular := regular } none w
  | .dir _ entries, w =>
    match walkFn path { IsDir := true, IsRegular := false } none w with
    | (some err, w) => (some err, w)
    | (none, w) => walkEntries walkFn path entries w
  | .unreadable _ err, w => walkFn path { IsDir := true, IsRegular := false } (some err) w
  | .missing _ err, w => walkFn path noFileInfo (some err) w
/-- The loop `for _, name := range names` of `walk`: every entry is walked
under the path `Join(path, name)`, and the first non-nil result ends the
loop. -/
def walkEntries {ω : Type}
    (walkFn : String → FileInfo → Option String → ω → Option String × ω)
    (path : String) : List Tree → ω → Option String × ω
  | [], w => (none, w)
  | t :: rest, w =>
    match walk walkFn (Join [path, t.name]) t w with
    | (some err, w) => (some err, w)
    | (none, w) => walkEntries walkFn path rest w
end

/-- Go `filepath.Walk(root, walkFn)`: the root is reported under the path
`root` as given, with the error of `os.Lstat(root)` when that fails. -/
def Walk {ω : Type} (root : String) (tree : Tree)
    (walkFn : String → FileInfo → Option String → ω → Option String × ω) (w : ω) :
    Option String × ω :=
  walk walkFn root tree w

end filepath

/-- Go `copyPath(src, dst, dryRun)`, run on the source tree `tree`. -/
def copyPath {σ φ : Type} (sys : System σ φ) (src dst : String) (dryRun : Bool)
    (tree : Tree) (w : World σ) : Option String × World σ :=
  filepath.Walk src tree (copyPathFn sys src dst dryRun) w

/-! ### Specification-side notions for the directory copy -/

/-- The filesystem action planned for a node: creation of a directory at a
destination path, a skip notice for a path, or the copy of a file from a source
path to a destination path. -/
inductive Action where
  | makePath (dest : String)
  | skip (path : String)
  | copy (source dest : String)
  deriving DecidableEq, Repr

/-- The log line that describes an action. -/
def Action.line : Action → String
  | .makePath dest => "make path " ++ dest
  | .skip path => "'" ++ path ++ "' is not a regular file, skipping"
  | .copy source dest => "copy " ++ source ++ " -> " ++ dest

/-- The action planned for a node by its kind: directory creation at the
destination path for a directory, a skip notice for a node that is neither a
directory nor a regular file, a copy from the node path to the destination
path for a regular file. -/
def plannedAction (src dst filePath : String) (info : FileInfo) : Action :=
  if info.IsDir then Action.makePath (dstFilePath src dst filePath)
  else if info.IsRegular then
    Action.copy (filepath.ToSlash filePath) (dstFilePath src dst filePath)
  else Action.skip (filepath.ToSlash filePath)

/-- Carrying an action out: the directory is created with `os.MkdirAll`, the
skip notice is logged and nothing else happens, the file is copied with
`copyFile`. The error, if any, is the one of the call. -/
def Action.perform {σ φ : Type} (sys : System σ φ) : Action → World σ → Option String × World σ
  | .makePath dest, w =>
    ((sys.MkdirAll dest w.fs).1, { w with fs := (sys.MkdirAll dest w.fs).2 })
  | .skip path, w => (none, w.Printf (Action.line (.skip path)))
  | .copy source dest, w =>
    ((copyFile sys source dest w.fs).1, { w with fs := (copyFile sys source dest w.fs).2 })

/-- What the walk reports of a node: its path, its file information and the
error of reaching it or of reading its entries, if any. -/
structure Report where
  path : String
  info : FileInfo
  err : Option String
  deriving DecidableEq, Repr

mutual
/-- The nodes of a tree with the paths they are reported under, in the order
of the visit: a node, then, for a directory that can be read, the nodes of its
entries in order, each entry under the path of the directory joined with its
name. A directory that cannot be read and a name whose `os.Lstat` fails are
reported with their error. -/
def Tree.reports (path : String) : Tree → List Report
  | .file _ regular =>
    [{ path := path, info := { IsDir := false, IsRegular := regular }, err := none }]
  | .dir _ entries =>
    { path := path, info := { IsDir := true, IsRegular := false }, err := none } ::
      Tree.reportsIn path entries
  | .unreadable _ err =>
    [{ path := path, info := { IsDir := true, IsRegular := false }, err := some err }]
  | .missing _ err => [{ path := path, info := noFileInfo, err := some err }]
/-- The reports of the entries of the directory at `path`. -/
def Tree.reportsIn (path : String) : List Tree → List Report
  | [] => []
  | t :: rest => Tree.reports (filepath.Join [path, t.name]) t ++ Tree.reportsIn path rest
end

/-- The reports made before the first one that carries an error. -/
def readableReports (reports : List Report) : List Report :=
  reports.takeWhile (fun r => r.err.isNone)

/-- The error of the first report that carries one. -/
def firstError (reports : List Report) : Option String :=
  reports.findSome? (fun r => r.err)

/-- The line a dry run logs for a node reported without error, by its kind. -/
def dryRunLine (src dst : String) (r : Report) : String :=
  if r.info.IsDir then "make path " ++ dstFilePath src dst r.path
  else if r.info.IsRegular then
    "copy " ++ filepath.ToSlash r.path ++ " -> " ++ dstFilePath src dst r.path
  else "'" ++ filepath.ToSlash r.path ++ "' is not a regular file, skipping"

/-- A file system that only records, in order, the paths created in it; every
call succeeds. It serves to run `copyPath` on concrete trees. -/
def recordingSystem : System (List String) String where
  MkdirAll := fun path s => (none, s ++ [path])
  Open := fun name s => (Except.ok name, s)
  Create := fun name s => (Except.ok name, s ++ [name])
  Copy := fun _ _ s => (none, s)
  Close := fun _ s => s

/-! ## The library models on known inputs -/

/-- The model of `filepath.Clean` on the table of the library's own test
(`cleantests` of `path/filepath`, Unix entries). -/
theorem clean_cleantests :
    ["abc", "abc/def", "a/b/c", ".", "..", "../..", "../../abc", "/abc", "/", "",
      "abc/", "abc/def/", "a/b/c/", "./", "../", "../../", "/abc/",
      "abc//def//ghi", "abc//", "abc/./def", "/./abc/def", "abc/.",
      "abc/def/ghi/../jkl", "abc/def/../ghi/../jkl", "abc/def/..", "abc/def/../..",
      "/abc/def/../..", "abc/def/../../..", "/abc/def/../../..",
      "abc/def/../../../ghi/jkl/../../../mno", "/../abc",
      "abc/./../def", "abc//./../def", "abc/../../././../def",
      "//abc", "///abc", "//abc//"].map filepath.Clean =
    ["abc", "abc/def", "a/b/c", ".", "..", "../..", "../../abc", "/abc", "/", ".",
      "abc", "abc/def", "a/b/c", ".", "..", "../..", "/abc",
      "abc/def/ghi", "abc", "abc/def", "/abc/def", "abc",
      "abc/def/jkl", "abc/jkl", "abc", ".",
      "/", "..", "/",
      "../../mno", "/abc",
      "def", "def", "../../def",
      "/abc", "/abc", "/abc"] := by
  decide

/-- The model of `filepath.Join` on entries of the library's own test
(`jointests` of `path/filepath`). -/
theorem join_jointests :
    [[], [""], ["/"], ["a"], ["a", "b"], ["a", ""], ["", "b"], ["/", "a"], ["/", "a/b"],
      ["/", ""], ["//", "a"], ["/a", "b"], ["a/", "b"], ["a/", ""], ["", ""]].map
        filepath.Join =
    ["", "", "/", "a", "a/b", "a", "b", "/a", "/a/b", "/", "/a", "/a/b", "a/b", "a", ""] := by
  decide

/-- The timestamp model on valid and invalid texts. -/
theorem parseBackupTime_examples :
    ["1970-01-01T00-00-00", "2023-01-01T00-00-00", "2024-02-29T23-59-59",
      "2023-02-29T23-59-59", "2023-13-01T00-00-00", "2023-01-01T24-00-00",
      "2023-01-01 00:00:00", "2023-01-01T00-00-00.gz", "bogus", ""].map parseBackupTime =
    [some 0, some 1672531200, some 1709251199, none, none, none, none, none, none, none] := by
  decide

/-- The string functions on the texts the pruner and the copier pass them. -/
theorem strings_examples :
    strings.TrimSuffix "2023-01-01T00-00-00.tar" ".tar" = "2023-01-01T00-00-00" ∧
    strings.TrimSuffix "a.tar.tar" ".tar" = "a.tar" ∧
    strings.TrimSuffix "2023-01-01T00-00-00.tar.gz" ".tar" = "2023-01-01T00-00-00.tar.gz" ∧
    strings.TrimPrefix "/var/lib/x" "/var/lib" = "/x" ∧
    strings.TrimPrefix "data/f" "./data" = "data/f" ∧
    strings.Trim "//a/b/" "/" = "a/b" ∧
    strings.Trim "" "/" = "" ∧
    wrapInt (0 - minInt) = minInt ∧
    wrapInt (maxInt + 1) = minInt ∧
    wrapInt (-1) = -1 := by
  decide

/-! ## Lemmas: the pruner -/

theorem parseBackups_foldl_eq (parseTime : String → Option Time) (backups : List String)
    (acc : List parsedBackup) :
    backups.foldl
      (fun backupList backupName =>
        match parseTime (strings.TrimSuffix backupName ".tar") with
        | some t => backupList ++ [{ name := backupName, time := t }]
        | none => backupList)
      acc = acc ++ parsedEntries parseTime backups := by
  induction backups generalizing acc with
  | nil => simp [parsedEntries]
  | cons b bs ih =>
    rw [List.foldl_cons, ih]
    cases h : parseTime (strings.TrimSuffix b ".tar") with
    | none => simp [parsedEntries, List.filterMap_cons, h]
    | some t => simp [parsedEntries, List.filterMap_cons, h]

theorem parseBackups_eq (parseTime : String → Option Time) (backups : List String) :
    parseBackups parseTime backups = parsedEntries parseTime backups := by
  unfold parseBackups
  rw [parseBackups_foldl_eq]
  simp

theorem parsedEntries_map_name (parseTime : String → Option Time) (backups : List String) :
    (parsedEntries parseTime backups).map (fun a => a.name) =
      backups.filter (parses parseTime) := by
  induction backups with
  | nil => simp [parsedEntries]
  | cons b bs ih =>
    unfold parsedEntries at ih ⊢
    cases h : parseTime (strings.TrimSuffix b ".tar") with
    | none => simp [List.filterMap_cons, h, parses, ih]
    | some t => simp [List.filterMap_cons, h, parses, ih]

theorem parsedEntries_length (parseTime : String → Option Time) (backups : List String) :
    (parsedEntries parseTime backups).length = backups.countP (parses parseTime) := by
  rw [List.countP_eq_length_filter, ← parsedEntries_map_name, List.length_map]

theorem parsedEntries_length_le (parseTime : String → Option Time) (backups : List String) :
    (parsedEntries parseTime backups).length ≤ backups.length := by
  rw [parsedEntries_length]
  exact List.countP_le_length _

theorem mem_parsedEntries {parseTime : String → Option Time} {backups : List String}
    {a : parsedBackup} (h : a ∈ parsedEntries parseTime backups) :
    a.name ∈ backups ∧ parseTime (strings.TrimSuffix a.name ".tar") = some a.time := by
  unfold parsedEntries at h
  rw [List.mem_filterMap] at h
  obtain ⟨name, hmem, hname⟩ := h
  cases hp : parseTime (strings.TrimSuffix name ".tar") with
  | none => simp [hp] at hname
  | some t =>
    simp [hp] at hname
    subst hname
    exact ⟨hmem, hp⟩

theorem insertStable_perm (x : parsedBackup) (l : List parsedBackup) :
    (sort.insertStable (fun a b => a.time.Before b.time) x l).Perm (x :: l) := by
  induction l with
  | nil => simp [sort.insertStable]
  | cons y ys ih =>
    unfold sort.insertStable
    split
    · exact List.Perm.refl _
    · exact ((List.Perm.cons y ih).trans (List.Perm.swap x y ys))

theorem insertStable_sorted (x : parsedBackup) (l : List parsedBackup)
    (h : l.Pairwise (fun a b => a.time ≤ b.time)) :
    (sort.insertStable (fun a b => a.time.Before b.time) x l).Pairwise
      (fun a b => a.time ≤ b.time) := by
  induction l with
  | nil => simp [sort.insertStable]
  | cons y ys ih =>
    unfold sort.insertStable
    rw [List.pairwise_cons] at h
    split
    · rename_i hlt
      have hxy : x.time < y.time := by simpa [Time.Before] using hlt
      rw [List.pairwise_cons]
      refine ⟨?_, List.pairwise_cons.mpr h⟩
      intro b hb
      rcases List.mem_cons.mp hb with hb | hb
      · subst hb; exact le_of_lt hxy
      · exact le_trans (le_of_lt hxy) (h.1 b hb)
    · rename_i hlt
      have hyx : y.time ≤ x.time := by
        have : ¬ x.time < y.time := by simpa [Time.Before] using hlt
        exact not_lt.mp this
      rw [List.pairwise_cons]
      refine ⟨?_, ih h.2⟩
      intro b hb
      rcases List.mem_cons.mp ((insertStable_perm x ys).subset hb) with hb | hb
      · subst hb; exact hyx
      · exact h.1 b hb

theorem insertStable_filter (x : parsedBackup) (l : List parsedBackup) (t : Time)
    (h : l.Pairwise (fun a b => a.time ≤ b.time)) :
    (sort.insertStable (fun a b => a.time.Before b.time) x l).filter
        (fun a => decide (a.time = t)) =
      l.filter (fun a => decide (a.time = t)) ++ [x].filter (fun a => decide (a.time = t)) := by
  induction l with
  | nil => simp [sort.insertStable]
  | cons y ys ih =>
    unfold sort.insertStable
    rw [List.pairwise_cons] at h
    split
    · rename_i hlt
      have hxy : x.time < y.time := by simpa [Time.Before] using hlt
      by_cases hx : x.time = t
      · have hnone : (y :: ys).filter (fun a => decide (a.time = t)) = [] := by
          rw [List.filter_eq_nil_iff]
          intro a ha
          have hya : y.time ≤ a.time := by
            rcases List.mem_cons.mp ha with ha | ha
            · subst ha; exact le_refl _
            · exact h.1 a ha
          have : t < a.time := by rw [← hx]; exact lt_of_lt_of_le hxy hya
          simpa using ne_of_gt this
        rw [List.filter_cons, hnone]
        simp [hx]
      · simp [List.filter_cons, hx]
    · have hcons : ∀ l : List parsedBackup,
          (y :: l).filter (fun a => decide (a.time = t)) =
            if y.time = t then y :: l.filter (fun a => decide (a.time = t))
            else l.filter (fun a => decide (a.time = t)) := by
        intro l
        simp [List.filter_cons]
      rw [hcons, hcons, ih h.2]
      split <;> simp

theorem sliceStable_foldl (xs acc : List parsedBackup)
    (h : acc.Pairwise (fun a b => a.time ≤ b.time)) :
    (xs.foldl (fun sorted a => sort.insertStable (fun a b => a.time.Before b.time) a sorted)
        acc).Perm (acc ++ xs) ∧
      (xs.foldl (fun sorted a => sort.insertStable (fun a b => a.time.Before b.time) a sorted)
        acc).Pairwise (fun a b => a.time ≤ b.time) ∧
      ∀ t : Time,
        (xs.foldl (fun sorted a => sort.insertStable (fun a b => a.time.Before b.time) a sorted)
          acc).filter (fun a => decide (a.time = t)) =
        acc.filter (fun a => decide (a.time = t)) ++ xs.filter (fun a => decide (a.time = t)) := by
  induction xs generalizing acc with
  | nil => simp [h]
  | cons x xs ih =>
    rw [List.foldl_cons]
    obtain ⟨hp, hs, hf⟩ := ih _ (insertStable_sorted x acc h)
    refine ⟨?_, hs, ?_⟩
    · refine hp.trans ?_
      refine ((insertStable_perm x acc).append_right xs).trans ?_
      simpa using (@List.perm_middle _ x acc xs).symm
    · intro t
      rw [hf t, insertStable_filter x acc t h, List.append_assoc, ← List.filter_append]
      rfl

/-- The library sort meets its contract: the result is the stable sort. -/
theorem sliceStable_isStableSort (l : List parsedBackup) :
    IsStableSortByTime l (sort.SliceStable (fun a b => a.time.Before b.time) l) := by
  obtain ⟨hp, hs, hf⟩ := sliceStable_foldl l [] List.Pairwise.nil
  exact ⟨by simpa using hp, hs, fun t => by simpa using hf t⟩

theorem stableSort_unique_aux (l₁ l₂ : List parsedBackup)
    (h₁ : l₁.Pairwise (fun a b => a.time ≤ b.time))
    (h₂ : l₂.Pairwise (fun a b => a.time ≤ b.time))
    (hf : ∀ t : Time, l₁.filter (fun a => decide (a.time = t)) =
      l₂.filter (fun a => decide (a.time = t))) : l₁ = l₂ := by
  induction l₁ generalizing l₂ with
  | nil =>
    cases l₂ with
    | nil => rfl
    | cons b bs =>
      have := hf b.time
      simp at this
  | cons a as ih =>
    cases l₂ with
    | nil =>
      have := hf a.time
      simp at this
    | cons b bs =>
      rw [List.pairwise_cons] at h₁ h₂
      have hab : b.time ≤ a.time := by
        have hmem : a ∈ (b :: bs).filter (fun a' => decide (a'.time = a.time)) := by
          rw [← hf a.time]; simp
        rcases List.mem_cons.mp (List.mem_filter.mp hmem).1 with h | h
        · rw [h]
        · exact h₂.1 a h
      have hba : a.time ≤ b.time := by
        have hmem : b ∈ (a :: as).filter (fun a' => decide (a'.time = b.time)) := by
          rw [hf b.time]; simp
        rcases List.mem_cons.mp (List.mem_filter.mp hmem).1 with h | h
        · rw [h]
        · exact h₁.1 b h
      have hEq : a.time = b.time := le_antisymm hba hab
      have hhead := hf a.time
      simp only [List.filter_cons, hEq, decide_True, if_true] at hhead
      have hab' : a = b := (List.cons.inj hhead).1
      subst hab'
      congr 1
      apply ih bs h₁.2 h₂.2
      intro t
      have := hf t
      simp only [List.filter_cons] at this
      split at this
      · exact (List.cons.inj this).2
      · exact this

/-- A list has exactly one stable sort by time. -/
theorem stableSort_unique {entries s₁ s₂ : List parsedBackup}
    (h₁ : IsStableSortByTime entries s₁) (h₂ : IsStableSortByTime entries s₂) : s₁ = s₂ :=
  stableSort_unique_aux s₁ s₂ h₁.2.1 h₂.2.1 (fun t => (h₁.2.2 t).trans (h₂.2.2 t).symm)

theorem wrapInt_of_inRange (x : Int) (h₁ : -(2 ^ 63) ≤ x) (h₂ : x < 2 ^ 63) :
    wrapInt x = x := by
  unfold wrapInt intSize
  norm_num at h₁ h₂ ⊢
  omega

theorem wrapInt_of_overflow (x : Int) (h₁ : 2 ^ 63 ≤ x) (h₂ : x < 2 ^ 64) :
    wrapInt x = x - 2 ^ 64 := by
  unfold wrapInt intSize
  norm_num at h₁ h₂ ⊢
  omega

theorem deleteLoop_done (backupList : List parsedBackup) (bound : Int) (fuel i : Nat)
    (result : List String) (h : bound ≤ i) :
    deleteLoop backupList bound (fuel + 1) i result = Outcome.ok result := by
  unfold deleteLoop
  rw [if_neg (not_lt.mpr h)]

theorem deleteLoop_ok (backupList : List parsedBackup) (d : Nat)
    (hd : d ≤ backupList.length) :
    ∀ (fuel i : Nat) (result : List String), i ≤ d → d - i < fuel →
      deleteLoop backupList (d : Int) fuel i result =
        Outcome.ok (result ++ ((backupList.take d).drop i).map (fun a => a.name)) := by
  intro fuel
  induction fuel with
  | zero => intro i result _ hf; omega
  | succ fuel ih =>
    intro i result hi hf
    unfold deleteLoop
    by_cases hlt : i < d
    · have hlen : i < backupList.length := lt_of_lt_of_le hlt hd
      have hcast : (i : Int) < (d : Int) := by exact_mod_cast hlt
      rw [if_pos hcast, List.getElem?_eq_getElem hlen]
      simp only []
      rw [ih (i + 1) _ (by omega) (by omega)]
      have hlen' : i < (backupList.take d).length := by
        rw [List.length_take]; omega
      rw [List.drop_eq_getElem_cons hlen', List.getElem_take]
      simp
    · have hid : i = d := by omega
      have hcast : ¬ (i : Int) < (d : Int) := by
        rw [hid]; exact lt_irrefl _
      rw [if_neg hcast]
      subst hid
      simp

theorem deleteLoop_outOfRange (backupList : List parsedBackup) (bound : Int)
    (hb : (backupList.length : Int) < bound) :
    ∀ (fuel i : Nat) (result : List String), i ≤ backupList.length →
      backupList.length - i < fuel →
      deleteLoop backupList bound fuel i result =
        Outcome.indexOutOfRange backupList.length backupList.length := by
  intro fuel
  induction fuel with
  | zero => intro i result _ hf; omega
  | succ fuel ih =>
    intro i result hi hf
    unfold deleteLoop
    have hcast : (i : Int) < bound := by
      have : (i : Int) ≤ (backupList.length : Int) := by exact_mod_cast hi
      omega
    rw [if_pos hcast]
    by_cases hlt : i < backupList.length
    · rw [List.getElem?_eq_getElem hlt]
      simp only []
      exact ih (i + 1) _ (by omega) (by omega)
    · have hid : i = backupList.length := by omega
      rw [List.getElem?_eq_none (by omega)]
      simp only []
      rw [hid]

theorem sliceStable_length (l : List parsedBackup) :
    (sort.SliceStable (fun a b => a.time.Before b.time) l).length = l.length :=
  (sliceStable_isStableSort l).1.length_eq

/-- For a retention count `keep ≥ 0` the pruner returns, and returns the names
of the first `n - keep` entries of the sorted list. -/
theorem getBackupsToDelete_of_nonneg (parseTime : String → Option Time)
    (backups : List String) (keep : Int) (hkeep : 0 ≤ keep)
    (hlen : backups.length < 2 ^ 63) :
    GetBackupsToDelete parseTime backups keep =
      Outcome.ok
        (((sort.SliceStable (fun a b => a.time.Before b.time)
            (parsedEntries parseTime backups)).take
          ((parsedEntries parseTime backups).length - keep.toNat)).map (fun a => a.name)) := by
  unfold GetBackupsToDelete
  rw [parseBackups_eq]
  simp only []
  have hL := sliceStable_length (parsedEntries parseTime backups)
  have hle := parsedEntries_length_le parseTime backups
  rw [hL]
  obtain ⟨k, rfl⟩ := Int.eq_ofNat_of_zero_le hkeep
  simp only [Int.toNat_ofNat]
  by_cases hgt : ((parsedEntries parseTime backups).length : Int) > (k : Int)
  · rw [if_pos hgt]
    have hgt' : k < (parsedEntries parseTime backups).length := by exact_mod_cast hgt
    have hw : wrapInt (((parsedEntries parseTime backups).length : Int) - (k : Int)) =
        (((parsedEntries parseTime backups).length - k : Nat) : Int) := by
      rw [wrapInt_of_inRange]
      · omega
      · omega
      · have : ((parsedEntries parseTime backups).length : Int) < 2 ^ 63 := by
          have h1 : (parsedEntries parseTime backups).length < 2 ^ 63 := lt_of_le_of_lt hle hlen
          exact_mod_cast h1
        omega
    rw [hw, deleteLoop_ok _ _ (by rw [hL]; omega) _ 0 [] (by omega) (by omega)]
    simp
  · rw [if_neg hgt]
    have : (parsedEntries parseTime backups).length - k = 0 := by
      have : ¬ k < (parsedEntries parseTime backups).length := by
        intro h; exact hgt (by exact_mod_cast h)
      omega
    rw [this]
    simp

theorem deleteLoop_mem (backupList : List parsedBackup) (bound : Int) :
    ∀ (fuel i : Nat) (result r : List String),
      deleteLoop backupList bound fuel i result = Outcome.ok r →
      ∀ x ∈ r, x ∈ result ∨ ∃ a ∈ backupList, a.name = x := by
  intro fuel
  induction fuel with
  | zero => intro i result r h; simp [deleteLoop] at h
  | succ fuel ih =>
    intro i result r h x hx
    unfold deleteLoop at h
    split at h
    · split at h
      · rename_i b hb
        rcases ih _ _ _ h x hx with hmem | hmem
        · rcases List.mem_append.mp hmem with hmem | hmem
          · exact Or.inl hmem
          · refine Or.inr ⟨b, List.getElem?_mem hb, ?_⟩
            simpa using (List.mem_singleton.mp hmem).symm
        · exact Or.inr hmem
      · simp at h
    · simp only [Outcome.ok.injEq] at h
      subst h
      exact Or.inl hx

/-- For a negative retention count the loop bound `len(backupList) - keep` is
computed in the type `int`: when it does not overflow it exceeds the length and
the loop indexes `backupList[len(backupList)]`; when it overflows it is
negative and the loop body never runs. -/
theorem getBackupsToDelete_of_neg (parseTime : String → Option Time)
    (backups : List String) (keep : Int) (hneg : keep < 0) (hmin : minInt ≤ keep)
    (hlen : backups.length < 2 ^ 63) :
    (((backups.countP (parses parseTime) : Nat) : Int) - keep < 2 ^ 63 →
      GetBackupsToDelete parseTime backups keep =
        Outcome.indexOutOfRange (backups.countP (parses parseTime))
          (backups.countP (parses parseTime))) ∧
    (2 ^ 63 ≤ ((backups.countP (parses parseTime) : Nat) : Int) - keep →
      GetBackupsToDelete parseTime backups keep = Outcome.ok []) := by
  have hL := sliceStable_length (parsedEntries parseTime backups)
  have hn := parsedEntries_length parseTime backups
  have hle := parsedEntries_length_le parseTime backups
  have hmin' : -(2 ^ 63) ≤ keep := by
    unfold minInt intSize at hmin
    norm_num at hmin ⊢
    exact hmin
  have hnlt : ((backups.countP (parses parseTime) : Nat) : Int) < 2 ^ 63 := by
    have h1 : backups.countP (parses parseTime) < 2 ^ 63 := by
      rw [← hn]; exact lt_of_le_of_lt hle hlen
    exact_mod_cast h1
  have hgt : ((sort.SliceStable (fun a b => a.time.Before b.time)
      (parsedEntries parseTime backups)).length : Int) > keep := by
    have : (0 : Int) ≤ ((sort.SliceStable (fun a b => a.time.Before b.time)
      (parsedEntries parseTime backups)).length : Int) := Int.natCast_nonneg _
    omega
  constructor
  · intro hno
    unfold GetBackupsToDelete
    rw [parseBackups_eq]
    simp only []
    rw [if_pos hgt]
    have hb : ((sort.SliceStable (fun a b => a.time.Before b.time)
        (parsedEntries parseTime backups)).length : Int) <
        wrapInt (((sort.SliceStable (fun a b => a.time.Before b.time)
          (parsedEntries parseTime backups)).length : Int) - keep) := by
      rw [hL, hn, wrapInt_of_inRange _ (by omega) hno]
      omega
    rw [deleteLoop_outOfRange _ _ hb _ 0 [] (by omega) (by omega), hL, hn]
  · intro hov
    unfold GetBackupsToDelete
    rw [parseBackups_eq]
    simp only []
    rw [if_pos hgt]
    apply deleteLoop_done
    rw [hL, hn, wrapInt_of_overflow _ hov (by norm_num at hnlt hmin' ⊢; omega)]
    norm_num at hnlt ⊢
    omega

/-! ## The pruner: claims -/

/-- C1. For every list of names and every `keep ≥ 0`, `GetBackupsToDelete`
returns the names of the first `max(0, n - keep)` entries of `L`, where `L` is
the list of the parseable names in input order (each with its parsed time),
stably sorted by time ascending, and `n` is its length. `L` exists and is
unique. -/
theorem getBackupsToDelete_eq_oldest (parseTime : String → Option Time)
    (backups : List String) (keep : Int) (hkeep : 0 ≤ keep)
    (hlen : backups.length < 2 ^ 63) :
    ∃ L : List parsedBackup,
      IsStableSortByTime (parsedEntries parseTime backups) L ∧
      (∀ L', IsStableSortByTime (parsedEntries parseTime backups) L' → L' = L) ∧
      GetBackupsToDelete parseTime backups keep =
        Outcome.ok ((L.take (max 0 ((L.length : Int) - keep)).toNat).map (fun a => a.name)) := by
  refine ⟨sort.SliceStable (fun a b => a.time.Before b.time) (parsedEntries parseTime backups),
    sliceStable_isStableSort _, fun L' h => stableSort_unique h (sliceStable_isStableSort _), ?_⟩
  rw [getBackupsToDelete_of_nonneg parseTime backups keep hkeep hlen, sliceStable_length]
  congr 3
  omega

/-- C1, at the names of the example with `keep = 1`. -/
theorem getBackupsToDelete_eq_oldest_witness :
    GetBackupsToDelete parseBackupTime
        ["2023-01-01T00-00-00.tar", "2023-01-02T00-00-00.tar", "bogus.tar",
          "2023-01-03T00-00-00.tar"] 1 =
      Outcome.ok ["2023-01-01T00-00-00.tar", "2023-01-02T00-00-00.tar"] ∧
    ∃ L : List parsedBackup,
      IsStableSortByTime (parsedEntries parseBackupTime
        ["2023-01-01T00-00-00.tar", "2023-01-02T00-00-00.tar", "bogus.tar",
          "2023-01-03T00-00-00.tar"]) L ∧
      (∀ L', IsStableSortByTime (parsedEntries parseBackupTime
        ["2023-01-01T00-00-00.tar", "2023-01-02T00-00-00.tar", "bogus.tar",
          "2023-01-03T00-00-00.tar"]) L' → L' = L) ∧
      GetBackupsToDelete parseBackupTime
        ["2023-01-01T00-00-00.tar", "2023-01-02T00-00-00.tar", "bogus.tar",
          "2023-01-03T00-00-00.tar"] 1 =
        Outcome.ok ((L.take (max 0 ((L.length : Int) - 1)).toNat).map (fun a => a.name)) :=
  ⟨by decide,
    getBackupsToDelete_eq_oldest parseBackupTime
      ["2023-01-01T00-00-00.tar", "2023-01-02T00-00-00.tar", "bogus.tar",
        "2023-01-03T00-00-00.tar"] 1 (by decide) (by decide)⟩

/-- C2. For every list of names and every `keep ≥ 0`, `GetBackupsToDelete`
returns a list of length `max(0, p - keep)`, `p` the number of entries of
`backups` (with multiplicity) whose text without one trailing ".tar" parses. -/
theorem getBackupsToDelete_length (parseTime : String → Option Time)
    (backups : List String) (keep : Int) (hkeep : 0 ≤ keep)
    (hlen : backups.length < 2 ^ 63) :
    ∃ r : List String, GetBackupsToDelete parseTime backups keep = Outcome.ok r ∧
      (r.length : Int) = max 0 (((backups.countP (parses parseTime) : Nat) : Int) - keep) := by
  refine ⟨_, getBackupsToDelete_of_nonneg parseTime backups keep hkeep hlen, ?_⟩
  rw [List.length_map, List.length_take, sliceStable_length, parsedEntries_length]
  omega

/-- C2, at a list with three parseable names, one duplicated, and `keep = 2`. -/
theorem getBackupsToDelete_length_witness :
    ∃ r : List String,
      GetBackupsToDelete parseBackupTime
        ["2023-01-02T00-00-00.tar", "notes.txt", "2023-01-02T00-00-00.tar",
          "2023-01-01T00-00-00"] 2 = Outcome.ok r ∧
      (r.length : Int) =
        max 0 (((["2023-01-02T00-00-00.tar", "notes.txt", "2023-01-02T00-00-00.tar",
          "2023-01-01T00-00-00"].countP (parses parseBackupTime) : Nat) : Int) - 2) :=
  getBackupsToDelete_length parseBackupTime
    ["2023-01-02T00-00-00.tar", "notes.txt", "2023-01-02T00-00-00.tar",
      "2023-01-01T00-00-00"] 2 (by decide) (by decide)

/-- C3. For every list of names and every `keep ≥ 0`, the parseable entries of
`backups` split, position by position, into the returned ones and the kept
ones, and the parsed time of every returned entry is at most the parsed time of
every kept entry. -/
theorem getBackupsToDelete_oldest_first (parseTime : String → Option Time)
    (backups : List String) (keep : Int) (hkeep : 0 ≤ keep)
    (hlen : backups.length < 2 ^ 63) :
    ∃ deleted kept : List String,
      GetBackupsToDelete parseTime backups keep = Outcome.ok deleted ∧
      (deleted ++ kept).Perm (backups.filter (parses parseTime)) ∧
      ∀ x ∈ deleted, ∀ y ∈ kept, ∀ tx ty : Time,
        parseTime (strings.TrimSuffix x ".tar") = some tx →
        parseTime (strings.TrimSuffix y ".tar") = some ty → tx ≤ ty := by
  have hS := sliceStable_isStableSort (parsedEntries parseTime backups)
  refine ⟨_, ((sort.SliceStable (fun a b => a.time.Before b.time)
      (parsedEntries parseTime backups)).drop
        ((parsedEntries parseTime backups).length - keep.toNat)).map (fun a => a.name),
    getBackupsToDelete_of_nonneg parseTime backups keep hkeep hlen, ?_, ?_⟩
  · rw [← List.map_append, List.take_append_drop, ← parsedEntries_map_name]
    exact hS.1.map _
  · intro x hx y hy tx ty hpx hpy
    obtain ⟨a, ha, rfl⟩ := List.mem_map.mp hx
    obtain ⟨b, hb, rfl⟩ := List.mem_map.mp hy
    have ha' := mem_parsedEntries (hS.1.subset (List.mem_of_mem_take ha))
    have hb' := mem_parsedEntries (hS.1.subset (List.mem_of_mem_drop hb))
    have hta : tx = a.time := Option.some.inj (hpx.symm.trans ha'.2)
    have htb : ty = b.time := Option.some.inj (hpy.symm.trans hb'.2)
    have hpw := hS.2.1
    rw [← List.take_append_drop ((parsedEntries parseTime backups).length - keep.toNat)
      (sort.SliceStable (fun a b => a.time.Before b.time) (parsedEntries parseTime backups)),
      List.pairwise_append] at hpw
    rw [hta, htb]
    exact hpw.2.2 a ha b hb

/-- C3, at four parseable names given out of order, two of them equal, with
`keep = 2`. -/
theorem getBackupsToDelete_oldest_first_witness :
    ∃ deleted kept : List String,
      GetBackupsToDelete parseBackupTime
        ["2023-01-03T00-00-00.tar", "2023-01-01T00-00-00.tar", "readme",
          "2023-01-02T00-00-00.tar", "2023-01-01T00-00-00.tar"] 2 = Outcome.ok deleted ∧
      (deleted ++ kept).Perm
        (["2023-01-03T00-00-00.tar", "2023-01-01T00-00-00.tar", "readme",
          "2023-01-02T00-00-00.tar", "2023-01-01T00-00-00.tar"].filter
            (parses parseBackupTime)) ∧
      ∀ x ∈ deleted, ∀ y ∈ kept, ∀ tx ty : Time,
        parseBackupTime (strings.TrimSuffix x ".tar") = some tx →
        parseBackupTime (strings.TrimSuffix y ".tar") = some ty → tx ≤ ty :=
  getBackupsToDelete_oldest_first parseBackupTime
    ["2023-01-03T00-00-00.tar", "2023-01-01T00-00-00.tar", "readme",
      "2023-01-02T00-00-00.tar", "2023-01-01T00-00-00.tar"] 2 (by decide) (by decide)

/-- C4. For every list of names and every integer `keep`, whatever
`GetBackupsToDelete` returns holds only names that are elements of `backups`
and whose text without one trailing ".tar" parses: a name that fails to parse
is never returned. -/
theorem getBackupsToDelete_only_parseable (parseTime : String → Option Time)
    (backups : List String) (keep : Int) (r : List String)
    (h : GetBackupsToDelete parseTime backups keep = Outcome.ok r) :
    ∀ x ∈ r, x ∈ backups ∧ parses parseTime x = true := by
  intro x hx
  unfold GetBackupsToDelete at h
  rw [parseBackups_eq] at h
  simp only [] at h
  split at h
  · rcases deleteLoop_mem _ _ _ _ _ _ h x hx with hmem | ⟨a, ha, rfl⟩
    · simp at hmem
    · have := mem_parsedEntries
        ((sliceStable_isStableSort (parsedEntries parseTime backups)).1.subset ha)
      exact ⟨this.1, by simp [parses, this.2]⟩
  · simp only [Outcome.ok.injEq] at h
    subst h
    simp at hx

/-- C4, at a list holding an unparseable name older-looking than the rest, with
`keep = 0`: everything parseable is returned, the unparseable name is not. -/
theorem getBackupsToDelete_only_parseable_witness :
    GetBackupsToDelete parseBackupTime
        ["0000-bogus.tar", "2023-01-02T00-00-00.tar", "2023-01-01T00-00-00.tar.gz",
          "2023-01-01T00-00-00.tar"] 0 =
      Outcome.ok ["2023-01-01T00-00-00.tar", "2023-01-02T00-00-00.tar"] ∧
    ∀ x ∈ ["2023-01-01T00-00-00.tar", "2023-01-02T00-00-00.tar"],
      x ∈ ["0000-bogus.tar", "2023-01-02T00-00-00.tar", "2023-01-01T00-00-00.tar.gz",
          "2023-01-01T00-00-00.tar"] ∧ parses parseBackupTime x = true :=
  ⟨by decide,
    getBackupsToDelete_only_parseable parseBackupTime
      ["0000-bogus.tar", "2023-01-02T00-00-00.tar", "2023-01-01T00-00-00.tar.gz",
        "2023-01-01T00-00-00.tar"] 0 _ (by decide)⟩

/-- C10, the claim as stated fails: with `keep` the smallest `int` the bound
`len(backupList) - keep` overflows to a negative value, the loop body never
runs and the function returns the empty list without any slice access, for the
empty list and for a list with a parseable name alike. -/
theorem getBackupsToDelete_minInt_returns :
    minInt < 0 ∧ minInt = -9223372036854775808 ∧
      GetBackupsToDelete parseBackupTime [] minInt = Outcome.ok [] ∧
      GetBackupsToDelete parseBackupTime ["2023-01-01T00-00-00.tar"] minInt =
        Outcome.ok [] := by
  decide

/-- C10, amended. For every list of names and every `int` value `keep`, with `p`
the number of parseable names: `GetBackupsToDelete` returns (no slice access
out of range) exactly when `keep ≥ 0` or the bound `p - keep` overflows the
type `int` (`p - keep ≥ 2^63`), and then every index used is below the length;
for `keep < 0` without overflow the loop reaches `backupList[p]`, which is out
of range for the length `p`. With overflow the result is the empty list. -/
theorem getBackupsToDelete_returns_iff (parseTime : String → Option Time)
    (backups : List String) (keep : Int) (hmin : minInt ≤ keep)
    (hlen : backups.length < 2 ^ 63) :
    ((∃ r, GetBackupsToDelete parseTime backups keep = Outcome.ok r) ↔
      (0 ≤ keep ∨ 2 ^ 63 ≤ ((backups.countP (parses parseTime) : Nat) : Int) - keep)) ∧
    (keep < 0 → ((backups.countP (parses parseTime) : Nat) : Int) - keep < 2 ^ 63 →
      GetBackupsToDelete parseTime backups keep =
        Outcome.indexOutOfRange (backups.countP (parses parseTime))
          (backups.countP (parses parseTime))) ∧
    (keep < 0 → 2 ^ 63 ≤ ((backups.countP (parses parseTime) : Nat) : Int) - keep →
      GetBackupsToDelete parseTime backups keep = Outcome.ok []) := by
  refine ⟨⟨?_, ?_⟩, ?_, ?_⟩
  · rintro ⟨r, hr⟩
    by_contra hcon
    rw [not_or, not_le, not_le] at hcon
    rw [(getBackupsToDelete_of_neg parseTime backups keep hcon.1 hmin hlen).1 hcon.2] at hr
    cases hr
  · intro h
    by_cases hk : 0 ≤ keep
    · exact ⟨_, getBackupsToDelete_of_nonneg parseTime backups keep hk hlen⟩
    · rcases h with h | h
      · exact absurd h hk
      · exact ⟨_, (getBackupsToDelete_of_neg parseTime backups keep (not_le.mp hk) hmin hlen).2 h⟩
  · intro hneg
    exact (getBackupsToDelete_of_neg parseTime backups keep hneg hmin hlen).1
  · intro hneg
    exact (getBackupsToDelete_of_neg parseTime backups keep hneg hmin hlen).2

/-- C10 amended, at `keep = -1` and a list with two parseable names: the loop
runs to index 2 of a list of length 2. -/
theorem getBackupsToDelete_returns_iff_witness :
    GetBackupsToDelete parseBackupTime
        ["2023-01-02T00-00-00.tar", "x", "2023-01-01T00-00-00.tar"] (-1) =
      Outcome.indexOutOfRange 2 2 ∧
    (((∃ r, GetBackupsToDelete parseBackupTime
        ["2023-01-02T00-00-00.tar", "x", "2023-01-01T00-00-00.tar"] (-1) = Outcome.ok r) ↔
      ((0 : Int) ≤ -1 ∨ 2 ^ 63 ≤
        (((["2023-01-02T00-00-00.tar", "x", "2023-01-01T00-00-00.tar"].countP
          (parses parseBackupTime) : Nat) : Int) - (-1)))) ∧
    ((-1 : Int) < 0 →
      (((["2023-01-02T00-00-00.tar", "x", "2023-01-01T00-00-00.tar"].countP
          (parses parseBackupTime) : Nat) : Int) - (-1)) < 2 ^ 63 →
      GetBackupsToDelete parseBackupTime
          ["2023-01-02T00-00-00.tar", "x", "2023-01-01T00-00-00.tar"] (-1) =
        Outcome.indexOutOfRange
          (["2023-01-02T00-00-00.tar", "x", "2023-01-01T00-00-00.tar"].countP
            (parses parseBackupTime))
          (["2023-01-02T00-00-00.tar", "x", "2023-01-01T00-00-00.tar"].countP
            (parses parseBackupTime))) ∧
    ((-1 : Int) < 0 → 2 ^ 63 ≤
      (((["2023-01-02T00-00-00.tar", "x", "2023-01-01T00-00-00.tar"].countP
          (parses parseBackupTime) : Nat) : Int) - (-1)) →
      GetBackupsToDelete parseBackupTime
          ["2023-01-02T00-00-00.tar", "x", "2023-01-01T00-00-00.tar"] (-1) =
        Outcome.ok [])) :=
  ⟨by decide,
    getBackupsToDelete_returns_iff parseBackupTime
      ["2023-01-02T00-00-00.tar", "x", "2023-01-01T00-00-00.tar"] (-1) (by decide)
      (by decide)⟩

/-! ## Archive format dispatch: claims -/

/-- C5. Every format identifier is one of the six supported ones or makes both
`getArchiveWriter` and `getArchiveReader` return an error and no strategy; the
message of `getArchiveReader` names each of the six identifiers, the message of
`getArchiveWriter` names five of them and does not name `tar`, which
`getArchiveWriter` accepts. -/
theorem getArchiveWriter_message_omits_tar (format : String) (level : Int) :
    (format ∈ supportedFormats ∨
      (getArchiveWriter format level =
          Except.error
            "wrong compression_format, supported: 'lz4', 'bzip2', 'gzip', 'sz', 'xz'" ∧
        getArchiveReader format =
          Except.error
            "wrong compression_format, supported: 'tar', 'lz4', 'bzip2', 'gzip', 'sz', 'xz'")) ∧
    getArchiveWriter "zip" level =
      Except.error "wrong compression_format, supported: 'lz4', 'bzip2', 'gzip', 'sz', 'xz'" ∧
    supportedFormats.map
        (namesFormat "wrong compression_format, supported: 'lz4', 'bzip2', 'gzip', 'sz', 'xz'") =
      [false, true, true, true, true, true] ∧
    strings.Contains "wrong compression_format, supported: 'lz4', 'bzip2', 'gzip', 'sz', 'xz'"
      "tar" = false ∧
    supportedFormats.map
        (namesFormat
          "wrong compression_format, supported: 'tar', 'lz4', 'bzip2', 'gzip', 'sz', 'xz'") =
      [true, true, true, true, true, true] ∧
    getArchiveWriter "tar" level = Except.ok Writer.Tar ∧
    supportedFormats.map (fun f => (getArchiveWriter f level).toBool) =
      [true, true, true, true, true, true] ∧
    supportedFormats.map (fun f => (getArchiveReader f).toBool) =
      [true, true, true, true, true, true] := by
  refine ⟨?_, rfl, by decide, by decide, by decide, rfl, rfl, rfl⟩
  unfold getArchiveWriter getArchiveReader supportedFormats
  split <;> simp

/-- C6. `getExtension` maps the six identifiers to `tar`, `tar.lz4`, `tar.bz2`,
`tar.gz`, `tar.sz`, `tar.xz`, and for every format string its result is
non-empty exactly when `getArchiveWriter` accepts the format, exactly when
`getArchiveReader` accepts it, and exactly when the format is one of the six. -/
theorem getExtension_nonempty_iff_accepted (format : String) (level : Int) :
    supportedFormats.map getExtension =
      ["tar", "tar.lz4", "tar.bz2", "tar.gz", "tar.sz", "tar.xz"] ∧
    (getExtension format ≠ "" ↔ ∃ w, getArchiveWriter format level = Except.ok w) ∧
    (getExtension format ≠ "" ↔ ∃ r, getArchiveReader format = Except.ok r) ∧
    (getExtension format ≠ "" ↔ format ∈ supportedFormats) := by
  refine ⟨by decide, ?_, ?_, ?_⟩
  · unfold getExtension getArchiveWriter
    split <;> simp
  · unfold getExtension getArchiveReader
    split <;> simp
  · unfold getExtension supportedFormats
    split <;> simp_all

/-! ## Directory copy: lemmas and claims -/

theorem copyPathFn_dryRun {σ φ : Type} (sys : System σ φ) (src dst filePath : String)
    (info : FileInfo) (w : World σ) :
    copyPathFn sys src dst true filePath info none w =
      (none, w.Printf (plannedAction src dst filePath info).line) := by
  unfold copyPathFn plannedAction dstFilePath
  cases hd : info.IsDir <;> cases hr : info.IsRegular <;> simp [Action.line]

theorem copyPathFn_real {σ φ : Type} (sys : System σ φ) (src dst filePath : String)
    (info : FileInfo) (w : World σ) :
    copyPathFn sys src dst false filePath info none w =
      (plannedAction src dst filePath info).perform sys w := by
  unfold copyPathFn plannedAction dstFilePath
  cases hd : info.IsDir <;> cases hr : info.IsRegular <;> simp [Action.perform, Action.line]

theorem plannedAction_line (src dst : String) (r : Report) :
    (plannedAction src dst r.path r.info).line = dryRunLine src dst r := by
  unfold plannedAction dryRunLine
  cases r.info.IsDir <;> cases r.info.IsRegular <;> simp [Action.line]

theorem reports_append_of_error (r₁ r₂ : List Report) (e : String)
    (h : firstError r₁ = some e) :
    firstError (r₁ ++ r₂) = some e ∧ readableReports (r₁ ++ r₂) = readableReports r₁ := by
  induction r₁ with
  | nil => simp [firstError] at h
  | cons r rs ih =>
    cases hr : r.err with
    | some e' =>
      simp only [firstError, List.findSome?_cons, hr] at h
      simp [firstError, readableReports, List.findSome?_cons, List.takeWhile_cons, hr, h]
    | none =>
      simp only [firstError, List.findSome?_cons, hr] at h
      have ih' := ih h
      simp only [firstError, readableReports] at ih'
      simp [firstError, readableReports, List.findSome?_cons, List.takeWhile_cons, hr, ih']

theorem reports_append_of_no_error (r₁ r₂ : List Report) (h : firstError r₁ = none) :
    firstError (r₁ ++ r₂) = firstError r₂ ∧
      readableReports (r₁ ++ r₂) = r₁ ++ readableReports r₂ ∧ readableReports r₁ = r₁ := by
  induction r₁ with
  | nil => simp [firstError, readableReports]
  | cons r rs ih =>
    cases hr : r.err with
    | some e' => simp [firstError, List.findSome?_cons, hr] at h
    | none =>
      simp only [firstError, List.findSome?_cons, hr] at h
      have ih' := ih h
      simp only [firstError, readableReports] at ih'
      simp [firstError, readableReports, List.findSome?_cons, List.takeWhile_cons, hr, ih']

mutual
theorem walk_dryRun {σ φ : Type} (sys : System σ φ) (src dst : String) (path : String) :
    ∀ (t : Tree) (w : World σ),
      filepath.walk (copyPathFn sys src dst true) path t w =
        (firstError (Tree.reports path t),
          { fs := w.fs, log := w.log ++
            (readableReports (Tree.reports path t)).map (dryRunLine src dst) })
  | .file _ regular, w => by
    rw [filepath.walk, copyPathFn_dryRun]
    simp [Tree.reports, World.Printf, firstError, readableReports, ← plannedAction_line]
  | .dir _ entries, w => by
    rw [filepath.walk, copyPathFn_dryRun]
    simp only []
    rw [walkEntries_dryRun sys src dst path entries]
    simp [Tree.reports, World.Printf, firstError, readableReports, ← plannedAction_line]
  | .unreadable _ err, w => by
    rw [filepath.walk]
    simp [copyPathFn, Tree.reports, firstError, readableReports]
  | .missing _ err, w => by
    rw [filepath.walk]
    simp [copyPathFn, Tree.reports, firstError, readableReports]
theorem walkEntries_dryRun {σ φ : Type} (sys : System σ φ) (src dst : String) (path : String) :
    ∀ (ts : List Tree) (w : World σ),
      filepath.walkEntries (copyPathFn sys src dst true) path ts w =
        (firstError (Tree.reportsIn path ts),
          { fs := w.fs, log := w.log ++
            (readableReports (Tree.reportsIn path ts)).map (dryRunLine src dst) })
  | [], w => by
    simp [filepath.walkEntries, Tree.reportsIn, firstError, readableReports]
  | t :: rest, w => by
    rw [filepath.walkEntries, walk_dryRun sys src dst _ t]
    cases h : firstError (Tree.reports (filepath.Join [path, t.name]) t) with
    | some e =>
      obtain ⟨h₁, h₂⟩ := reports_append_of_error _ (Tree.reportsIn path rest) e h
      simp only [Tree.reportsIn, h₁, h₂]
    | none =>
      obtain ⟨h₁, h₂, h₃⟩ := reports_append_of_no_error _ (Tree.reportsIn path rest) h
      simp only []
      rw [walkEntries_dryRun sys src dst path rest]
      simp only [Tree.reportsIn, h₁, h₂, h₃, List.map_append, List.append_assoc]
end

/-- C7. The code at a source root written as `.`: the walk reports the entry
`.git` of the root under the path `Join(".", ".git") = ".git"`, and the
destination path computed for it is `out/git`, not `Join("out", ".git") =
"out/.git"`; a dry run logs the copy to `out/git`. For the root `./data` the
entry `f` is reported as `data/f` and sent to `out/data/f`, not to `out/f`. -/
theorem copyPath_relative_root_destination {σ φ : Type} (sys : System σ φ) (w : World σ) :
    filepath.Join [".", ".git"] = ".git" ∧
    dstFilePath "." "out" ".git" = "out/git" ∧
    filepath.Join ["out", ".git"] = "out/.git" ∧
    (copyPath sys "." "out" true (Tree.dir "." [Tree.file ".git" true]) w).2.log =
      w.log ++ ["make path out", "copy .git -> out/git"] ∧
    filepath.Join ["./data", "f"] = "data/f" ∧
    dstFilePath "./data" "out" "data/f" = "out/data/f" ∧
    filepath.Join ["out", "f"] = "out/f" := by
  refine ⟨by decide, by decide, by decide, ?_, by decide, by decide, by decide⟩
  unfold copyPath filepath.Walk
  rw [walk_dryRun]
  have h1 : (readableReports (Tree.reports "." (Tree.dir "." [Tree.file ".git" true]))).map
      (dryRunLine "." "out") = ["make path out", "copy .git -> out/git"] := by decide
  rw [h1]

/-- C8, the claim as stated fails. A dry run on a source root that is a
directory whose entries cannot be read visits that directory and logs no line
for it: `copyPath` returns the error of the reading. Below a readable root the
walk stops at such a directory: the root and the entry before it have their
line, the directory has none and the entry after it is never visited. -/
theorem copyPath_dryRun_unreadable_directory :
    (copyPath recordingSystem "src" "dst" true (Tree.unreadable "src" "permission denied")
        { fs := [], log := [] }).1 = some "permission denied" ∧
    (copyPath recordingSystem "src" "dst" true (Tree.unreadable "src" "permission denied")
        { fs := [], log := [] }).2.log = [] ∧
    Tree.reports "src" (Tree.unreadable "src" "permission denied") =
      [{ path := "src", info := { IsDir := true, IsRegular := false },
         err := some "permission denied" }] ∧
    (copyPath recordingSystem "src" "dst" true
        (Tree.dir "src" [Tree.file "a" true, Tree.unreadable "private" "permission denied",
          Tree.file "z" true])
        { fs := [], log := [] }).1 = some "permission denied" ∧
    (copyPath recordingSystem "src" "dst" true
        (Tree.dir "src" [Tree.file "a" true, Tree.unreadable "private" "permission denied",
          Tree.file "z" true])
        { fs := [], log := [] }).2.log = ["make path dst", "copy src/a -> dst/a"] := by
  decide

/-- C8, amended. With `dryRun = true`, for every system, source, destination,
tree and state, `copyPath` leaves the state of the file system as it was and
appends to the log exactly one line per node that the walk reports without an
error before it ends, in the order of the visit: "make path <dest>" for a
directory, "'<path>' is not a regular file, skipping" for a node that is
neither a directory nor regular, and "copy <src> -> <dest>" for a regular
file. A node reported with an error (a directory whose entries cannot be read,
a name whose `os.Lstat` fails) gets no line and ends the walk: `copyPath`
returns the error of the first such node, and nil when there is none. -/
theorem copyPath_dryRun {σ φ : Type} (sys : System σ φ) (src dst : String) (tree : Tree)
    (w : World σ) :
    (copyPath sys src dst true tree w).2.fs = w.fs ∧
    (copyPath sys src dst true tree w).2.log =
      w.log ++ ((Tree.reports src tree).takeWhile (fun r => r.err.isNone)).map
        (fun r =>
          if r.info.IsDir then "make path " ++ dstFilePath src dst r.path
          else if r.info.IsRegular then
            "copy " ++ filepath.ToSlash r.path ++ " -> " ++ dstFilePath src dst r.path
          else "'" ++ filepath.ToSlash r.path ++ "' is not a regular file, skipping") ∧
    ((copyPath sys src dst true tree w).2.log).length =
      w.log.length + ((Tree.reports src tree).takeWhile (fun r => r.err.isNone)).length ∧
    (copyPath sys src dst true tree w).1 =
      (Tree.reports src tree).findSome? (fun r => r.err) := by
  unfold copyPath filepath.Walk
  rw [walk_dryRun]
  refine ⟨rfl, rfl, ?_, rfl⟩
  simp [readableReports]

/-- C8 amended, at a tree with a directory, a regular file, a node that is
neither, and a name whose `os.Lstat` fails: three lines, the state of the file
system unchanged, the error returned. -/
theorem copyPath_dryRun_witness :
    (copyPath recordingSystem "/data" "/backup" true
        (Tree.dir "" [Tree.dir "db" [Tree.file "t.bin" true, Tree.file "sock" false],
          Tree.missing "gone" "no such file or directory", Tree.file "late" true])
        { fs := ["/backup"], log := [] }).2.log =
      ["make path /backup", "make path /backup/db", "copy /data/db/t.bin -> /backup/db/t.bin",
        "'/data/db/sock' is not a regular file, skipping"] ∧
    ((copyPath recordingSystem "/data" "/backup" true
        (Tree.dir "" [Tree.dir "db" [Tree.file "t.bin" true, Tree.file "sock" false],
          Tree.missing "gone" "no such file or directory", Tree.file "late" true])
        { fs := ["/backup"], log := [] }).2.fs = ["/backup"] ∧
    (copyPath recordingSystem "/data" "/backup" true
        (Tree.dir "" [Tree.dir "db" [Tree.file "t.bin" true, Tree.file "sock" false],
          Tree.missing "gone" "no such file or directory", Tree.file "late" true])
        { fs := ["/backup"], log := [] }).2.log =
      [] ++ ((Tree.reports "/data"
        (Tree.dir "" [Tree.dir "db" [Tree.file "t.bin" true, Tree.file "sock" false],
          Tree.missing "gone" "no such file or directory", Tree.file "late" true])).takeWhile
            (fun r => r.err.isNone)).map
        (fun r =>
          if r.info.IsDir then "make path " ++ dstFilePath "/data" "/backup" r.path
          else if r.info.IsRegular then
            "copy " ++ filepath.ToSlash r.path ++ " -> " ++ dstFilePath "/data" "/backup" r.path
          else "'" ++ filepath.ToSlash r.path ++ "' is not a regular file, skipping") ∧
    ((copyPath recordingSystem "/data" "/backup" true
        (Tree.dir "" [Tree.dir "db" [Tree.file "t.bin" true, Tree.file "sock" false],
          Tree.missing "gone" "no such file or directory", Tree.file "late" true])
        { fs := ["/backup"], log := [] }).2.log).length =
      ([] : List String).length + ((Tree.reports "/data"
        (Tree.dir "" [Tree.dir "db" [Tree.file "t.bin" true, Tree.file "sock" false],
          Tree.missing "gone" "no such file or directory", Tree.file "late" true])).takeWhile
            (fun r => r.err.isNone)).length ∧
    (copyPath recordingSystem "/data" "/backup" true
        (Tree.dir "" [Tree.dir "db" [Tree.file "t.bin" true, Tree.file "sock" false],
          Tree.missing "gone" "no such file or directory", Tree.file "late" true])
        { fs := ["/backup"], log := [] }).1 =
      (Tree.reports "/data"
        (Tree.dir "" [Tree.dir "db" [Tree.file "t.bin" true, Tree.file "sock" false],
          Tree.missing "gone" "no such file or directory", Tree.file "late" true])).findSome?
            (fun r => r.err)) :=
  ⟨by decide,
    copyPath_dryRun recordingSystem "/data" "/backup"
      (Tree.dir "" [Tree.dir "db" [Tree.file "t.bin" true, Tree.file "sock" false],
        Tree.missing "gone" "no such file or directory", Tree.file "late" true])
      { fs := ["/backup"], log := [] }⟩

/-- C9. For every node (path, directory flag, regular flag), source and
destination there is one planned action, fixed by the kind of the node
(directory creation at the destination path, skip notice, or copy from the
node path to the destination path), such that the dry-run branch of `copyPath`
logs the line describing that action and does nothing else, and the real
branch carries that action out: `os.MkdirAll` at the same destination, the
skip notice with no copy and no error, or `copyFile` with the same source and
destination. -/
theorem copyPathFn_preview_faithful {σ φ : Type} (sys : System σ φ)
    (src dst filePath : String) (info : FileInfo) (w : World σ) :
    ∃ a : Action,
      a = (if info.IsDir then Action.makePath (dstFilePath src dst filePath)
        else if info.IsRegular then
          Action.copy (filepath.ToSlash filePath) (dstFilePath src dst filePath)
        else Action.skip (filepath.ToSlash filePath)) ∧
      copyPathFn sys src dst true filePath info none w = (none, w.Printf a.line) ∧
      copyPathFn sys src dst false filePath info none w = a.perform sys w ∧
      (Action.skip (filepath.ToSlash filePath)).perform sys w =
        (none, w.Printf ("'" ++ filepath.ToSlash filePath ++ "' is not a regular file, skipping")) ∧
      (Action.makePath (dstFilePath src dst filePath)).perform sys w =
        ((sys.MkdirAll (dstFilePath src dst filePath) w.fs).1,
          { w with fs := (sys.MkdirAll (dstFilePath src dst filePath) w.fs).2 }) ∧
      (Action.copy (filepath.ToSlash filePath) (dstFilePath src dst filePath)).perform sys w =
        ((copyFile sys (filepath.ToSlash filePath) (dstFilePath src dst filePath) w.fs).1,
          { w with fs :=
            (copyFile sys (filepath.ToSlash filePath) (dstFilePath src dst filePath) w.fs).2 }) :=
  ⟨plannedAction src dst filePath info, rfl, copyPathFn_dryRun sys src dst filePath info w,
    copyPathFn_real sys src dst filePath info w, rfl, rfl, rfl⟩

end ClickhouseBackup
